import Mathlib

/-!
# Verification of the SML composer core

Shallow embedding of the python-composer repository's core algorithms:
pitch parsing (`src/dsl/sml_ast.py`), duration quantization, bar layout,
the DSL parser's flat-note bucketing / track assembly / bar overrides
(`src/dsl/dsl_parser.py`), and the batch MIDI renderer
(`src/services/midi_export.py`).

Numeric modelling conventions: Python floats are modelled as exact
rationals (`ℚ`); every float appearing in the verified claims is a small
dyadic value on which Python's binary floating point is exact, so the
rational model agrees with the code.  Python's `round` (banker's
rounding, half to even) is `pyRound`; Python's `int()` truncation toward
zero is `pyTrunc`; Python's float `//` and `%` are `⌊·/·⌋` and
`pyMod`.
-/

namespace Composer

/-- Python 3 `round` on a rational: round half to even (banker's rounding). -/
def pyRound (q : ℚ) : ℤ :=
  let f : ℤ := ⌊q⌋
  let r : ℚ := q - f
  if r < 1/2 then f
  else if 1/2 < r then f + 1
  else if f % 2 = 0 then f else f + 1

/-- Python `int()` applied to a float: truncation toward zero. -/
def pyTrunc (q : ℚ) : ℤ :=
  if 0 ≤ q then ⌊q⌋ else -⌊-q⌋

/-- Python `%` on floats: `x % y = x - y * ⌊x / y⌋` (sign of the divisor). -/
def pyMod (x y : ℚ) : ℚ :=
  x - y * ⌊x / y⌋

/-- Digit run parser: `some n` iff the char list is a nonempty run of
ASCII digits (the `\d+` part of the regexes / `int(...)`). -/
def parseDigits (cs : List Char) : Option ℕ :=
  if cs ≠ [] ∧ cs.all Char.isDigit then
    some (cs.foldl (fun acc c => 10 * acc + (c.toNat - 48)) 0)
  else none

/-- Parser for `-?\d+` (an optionally negated digit run), used for the
octave field of `PITCH_REGEX` and for Python's `int(key)` on the simple
integer strings relevant here. -/
def parseSignedDigits (cs : List Char) : Option ℤ :=
  match cs with
  | '-' :: rest => (parseDigits rest).map (fun n => -(n : ℤ))
  | _ => (parseDigits cs).map (fun n => (n : ℤ))

/-!
## Duration quantizer (`sml_ast.py`: `DURATION_UNIT_MAP`, `DurationSpec.compute_units`)
-/

/-- `DEFAULT_UNITS_PER_BAR = 32`. -/
def DEFAULT_UNITS_PER_BAR : ℤ := 32

/-- The static duration table `DURATION_UNIT_MAP`.  The dotted and triplet
entries are written as the integers Python computes
(`int(round(16*1.5)) = 24`, ..., `int(round(8*2/3)) = 5`,
`int(round(4*2/3)) = 3`, `int(round(2*2/3)) = 1`). -/
def DURATION_UNIT_MAP : String → Option ℤ
  | "whole" => some 32
  | "half" => some 16
  | "quarter" => some 8
  | "eighth" => some 4
  | "sixteenth" => some 2
  | "thirty_second" => some 1
  | "dotted_half" => some 24
  | "dotted_quarter" => some 12
  | "dotted_eighth" => some 6
  | "triplet_quarter" => some 5
  | "triplet_eighth" => some 3
  | "triplet_sixteenth" => some 1
  | _ => none

/-- The named tokens of `DURATION_UNIT_MAP`, for quantified statements. -/
def durationTokens : List String :=
  ["whole", "half", "quarter", "eighth", "sixteenth", "thirty_second",
   "dotted_half", "dotted_quarter", "dotted_eighth",
   "triplet_quarter", "triplet_eighth", "triplet_sixteenth"]

/-- The table as an explicit (token, base) association list. -/
def durationTableEntries : List (String × ℤ) :=
  [("whole", 32), ("half", 16), ("quarter", 8), ("eighth", 4),
   ("sixteenth", 2), ("thirty_second", 1),
   ("dotted_half", 24), ("dotted_quarter", 12), ("dotted_eighth", 6),
   ("triplet_quarter", 5), ("triplet_eighth", 3), ("triplet_sixteenth", 1)]

/-- `DurationSpec.compute_units`: look the token up in the table, else try
`int(key)`, else raise `Unknown duration token`; then
`scale = units_per_bar / 32` and `units = max(1, round(base * scale))`. -/
def computeUnits (name : String) (units_per_bar : ℤ) : Except String ℤ :=
  let base? : Option ℤ :=
    match DURATION_UNIT_MAP name with
    | some b => some b
    | none => parseSignedDigits name.toList
  match base? with
  | none => .error ("Unknown duration token: " ++ name)
  | some base =>
      let scale : ℚ := (units_per_bar : ℚ) / (DEFAULT_UNITS_PER_BAR : ℚ)
      .ok (max 1 (pyRound ((base : ℚ) * scale)))

/-- `NoteItem.validate_pitch_and_duration`: a note item is admitted only
with a pitch carrying a midi value and `duration.units > 0`. -/
def validateNoteItem (midi? : Option ℤ) (durationUnits : ℤ) : Except String Unit :=
  if midi?.isNone then .error "NoteItem requires a valid Pitch with midi value"
  else if durationUnits ≤ 0 then .error "Computed duration units must be positive"
  else .ok ()

/-- `RestItem.validate_duration`: a rest is admitted only with
`duration.units > 0`. -/
def validateRestItem (durationUnits : ℤ) : Except String Unit :=
  if durationUnits ≤ 0 then .error "Rest must have positive duration"
  else .ok ()

/-- For a token of the table, `computeUnits` is the clamped scaled rounding
of its base. -/
lemma computeUnits_of_table (t : String) (base : ℤ)
    (h : DURATION_UNIT_MAP t = some base) (upb : ℤ) :
    computeUnits t upb = .ok (max 1 (pyRound ((base : ℚ) * upb / 32))) := by
  simp [computeUnits, h, DEFAULT_UNITS_PER_BAR, mul_div_assoc]

/-- `durationTableEntries` is exactly the graph of `DURATION_UNIT_MAP`. -/
lemma durationTableEntries_complete (t : String) (b : ℤ)
    (h : DURATION_UNIT_MAP t = some b) : (t, b) ∈ durationTableEntries := by
  unfold DURATION_UNIT_MAP at h
  split at h <;> simp_all [durationTableEntries]

/-- C3 (amended): for every (token, base) entry of the static table,
`compute(token, 32)` returns the base and `compute(token, 16)` returns
`max(1, round(base/2))` (with Python's round-half-to-even); in general the
computed units are `max(1, round(base * units_per_bar / 32))`; the entry
list is exactly the table; and a token that is neither in the table nor
numeric fails with the `Unknown duration token` error. -/
theorem c3_duration_compute :
    (∀ p ∈ durationTableEntries,
      DURATION_UNIT_MAP p.1 = some p.2 ∧
      computeUnits p.1 32 = .ok p.2 ∧
      computeUnits p.1 16 = .ok (max 1 (pyRound ((p.2 : ℚ) / 2))) ∧
      ∀ upb : ℤ, computeUnits p.1 upb = .ok (max 1 (pyRound ((p.2 : ℚ) * upb / 32)))) ∧
    (∀ t b, DURATION_UNIT_MAP t = some b → (t, b) ∈ durationTableEntries) ∧
    (∀ t upb, DURATION_UNIT_MAP t = none → parseSignedDigits t.toList = none →
      computeUnits t upb = .error ("Unknown duration token: " ++ t)) := by
  refine ⟨?_, durationTableEntries_complete, ?_⟩
  · intro p hp
    have hmap : DURATION_UNIT_MAP p.1 = some p.2 := by
      fin_cases hp <;> rfl
    refine ⟨hmap, ?_, ?_, computeUnits_of_table p.1 p.2 hmap⟩
    · rw [computeUnits_of_table p.1 p.2 hmap 32]
      fin_cases hp <;> exact congrArg Except.ok (by norm_num [pyRound, max_def])
    · rw [computeUnits_of_table p.1 p.2 hmap 16]
      fin_cases hp <;> exact congrArg Except.ok (by norm_num [pyRound, max_def])
  · intro t upb h1 h2
    have h2' : parseSignedDigits t.data = none := h2
    simp [computeUnits, h1, h2']

/-- C3 witness: the quantified parts of `c3_duration_compute`, applied to
the concrete token "quarter" (base 8) at resolutions 32 and 16. -/
theorem c3_duration_compute_witness :
    computeUnits "quarter" 32 = .ok 8 ∧
    computeUnits "quarter" 16 = .ok (max 1 (pyRound ((8 : ℚ) / 2))) := by
  have h := c3_duration_compute.1 ("quarter", 8) (by decide)
  exact ⟨h.2.1, h.2.2.1⟩

/-- C3 counterexample: the claim's identity
`compute(token, 16) = round(table[token]/2)` fails at `thirty_second`:
the table base is 1, Python's `round(0.5)` is 0 (half-to-even), but
`compute` clamps to `max(1, ·)` and returns 1. -/
theorem c3_counterexample :
    DURATION_UNIT_MAP "thirty_second" = some 1 ∧
    pyRound ((1 : ℚ) / 2) = 0 ∧
    computeUnits "thirty_second" 16 = .ok 1 ∧
    (Except.ok 1 ≠ (Except.ok 0 : Except String ℤ)) := by
  refine ⟨rfl, by norm_num [pyRound], ?_, fun h => absurd (Except.ok.inj h) (by decide)⟩
  rw [computeUnits_of_table "thirty_second" 1 rfl 16]
  exact congrArg Except.ok (by norm_num [pyRound, max_def])

/-- C9 (amended): computed duration units are always at least 1 (the
rounded value is clamped by `max(1, ·)` rather than rejected), so every
successfully computed duration passes both item validators: no
constructed bar item has nonpositive duration units. -/
theorem c9_no_zero_units :
    ∀ t upb units, computeUnits t upb = .ok units →
      1 ≤ units ∧ validateRestItem units = .ok () ∧
      ∀ m : ℤ, validateNoteItem (some m) units = .ok () := by
  intro t upb units h
  have h1 : 1 ≤ units := by
    unfold computeUnits at h
    rcases hb : (match DURATION_UNIT_MAP t with
      | some b => some b
      | none => parseSignedDigits t.toList) with _ | base
    · rw [hb] at h; exact absurd h (by simp)
    · rw [hb] at h
      simp only [Except.ok.injEq] at h
      omega
  have h2 : ¬ units ≤ 0 := by omega
  exact ⟨h1, by simp [validateRestItem, h2], fun m => by simp [validateNoteItem, h2]⟩

/-- C9 witness: `c9_no_zero_units` at the concrete token `thirty_second`
with `units_per_bar = 8`, where the unclamped rounding would be 0. -/
theorem c9_no_zero_units_witness :
    1 ≤ (1 : ℤ) ∧ validateRestItem 1 = .ok () ∧
    ∀ m : ℤ, validateNoteItem (some m) 1 = .ok () :=
  c9_no_zero_units "thirty_second" 8 1
    (by rw [computeUnits_of_table "thirty_second" 1 rfl 8]
        exact congrArg Except.ok (by norm_num [pyRound, max_def]))

/-- C9 counterexample: at `units_per_bar = 8`, the named duration
`thirty_second` rounds to 0 units (`round(1 * 8/32) = 0`), yet the item is
not rejected: `compute` clamps the result to 1 and both validators admit
the item. -/
theorem c9_counterexample :
    pyRound ((1 : ℚ) * 8 / 32) = 0 ∧
    computeUnits "thirty_second" 8 = .ok 1 ∧
    validateRestItem 1 = .ok () ∧
    validateNoteItem (some 60) 1 = .ok () := by
  refine ⟨by norm_num [pyRound], ?_, rfl, rfl⟩
  rw [computeUnits_of_table "thirty_second" 1 rfl 8]
  exact congrArg Except.ok (by norm_num [pyRound, max_def])

/-!
## Pitch resolver (`sml_ast.py`: `PITCH_REGEX`, `Pitch.from_string`)
-/

/-- The letter class `[A-Ga-g]` of `PITCH_REGEX`. -/
def pitchLetters : List Char :=
  ['A', 'B', 'C', 'D', 'E', 'F', 'G', 'a', 'b', 'c', 'd', 'e', 'f', 'g']

/-- The accidental class `[#b♯♭]` of `PITCH_REGEX`. -/
def accidentalChars : List Char := ['#', 'b', '♯', '♭']

def isPitchLetter (c : Char) : Bool := pitchLetters.contains c

def isAccidentalChar (c : Char) : Bool := accidentalChars.contains c

/-- Python `str.strip()` whitespace predicate (ASCII whitespace). -/
def isPySpace (c : Char) : Bool :=
  [' ', '\t', '\n', '\r', '\x0b', '\x0c'].contains c

/-- Python `str.strip()`: drop leading and trailing whitespace. -/
def stripWS (cs : List Char) : List Char :=
  ((cs.dropWhile isPySpace).reverse.dropWhile isPySpace).reverse

/-- `PITCH_REGEX.match`: decompose `letter accidental? (-?digits)` into its
three groups.  The accidental is taken greedily; this is the regex's
behaviour since the accidental class and the octave's `[-0-9]` class are
disjoint. -/
def matchPitch : List Char → Option (Char × Option Char × ℤ)
  | [] => none
  | c :: rest =>
    if isPitchLetter c then
      match rest with
      | a :: rest2 =>
        if isAccidentalChar a then
          (parseSignedDigits rest2).map (fun o => (c, some a, o))
        else
          (parseSignedDigits rest).map (fun o => (c, none, o))
      | [] => none
    else none

/-- The result of `Pitch.from_string` / `Pitch.from_midi`. -/
structure Pitch where
  name : String
  octave : ℤ
  midi : ℤ
  deriving DecidableEq, Repr

/-- The `base_map` of natural-note semitones in `Pitch.from_string`. -/
def baseSemitone : Char → Option ℤ
  | 'C' => some 0
  | 'D' => some 2
  | 'E' => some 4
  | 'F' => some 5
  | 'G' => some 7
  | 'A' => some 9
  | 'B' => some 11
  | _ => none

/-- `accidental.replace('♯', '#').replace('♭', 'b')` on a single
accidental character. -/
def asciiAccidental (a : Char) : Char :=
  if a = '♯' then '#' else if a = '♭' then 'b' else a

/-- The body of `Pitch.from_string` after the regex match: uppercase the
letter, ASCII-ify the accidental, look up the semitone, apply the
accidental offset, compute `midi = (octave+1)*12 + semitone`, and
range-check the result. -/
def fromParts (letter : Char) (accidental : Option Char) (octave : ℤ) :
    Except String Pitch :=
  let letterU := letter.toUpper
  let accA := accidental.map asciiAccidental
  match baseSemitone letterU with
  | none => .error ("Invalid pitch letter: " ++ letterU.toString)
  | some base =>
    let semitone : ℤ :=
      match accA with
      | some '#' => base + 1
      | some 'b' => base - 1
      | _ => base
    let midi := (octave + 1) * 12 + semitone
    if midi < 0 ∨ midi > 127 then
      .error "Resulting MIDI out of range"
    else
      .ok ⟨(match accA with
            | some a => letterU.toString ++ a.toString
            | none => letterU.toString), octave, midi⟩

/-- `Pitch.from_string` on an explicit character list (after stripping). -/
def fromChars (cs : List Char) : Except String Pitch :=
  match matchPitch cs with
  | none => .error "Invalid pitch string"
  | some (l, a, o) => fromParts l a o

/-- `Pitch.from_string`: strip, regex-match, then resolve. -/
def Pitch.from_string (s : String) : Except String Pitch :=
  fromChars (stripWS s.toList)

/-- `fromParts` only depends on the letter through `toUpper`. -/
lemma fromParts_toUpper (l : Char) (hl : l ∈ pitchLetters) (a : Option Char)
    (o : ℤ) : fromParts l a o = fromParts l.toUpper a o := by
  fin_cases hl <;> rfl

/-- `fromParts` only depends on the accidental through `asciiAccidental`. -/
lemma fromParts_asciiAccidental (l : Char) (a : Char)
    (ha : a ∈ accidentalChars) (o : ℤ) :
    fromParts l (some a) o = fromParts l (some (asciiAccidental a)) o := by
  fin_cases ha <;> rfl

/-- Unfolding of `matchPitch` when the head is a pitch letter. -/
lemma matchPitch_cons (l : Char) (hl : isPitchLetter l = true)
    (rest : List Char) :
    matchPitch (l :: rest) =
      match rest with
      | a :: rest2 =>
        if isAccidentalChar a then
          (parseSignedDigits rest2).map (fun o => (l, some a, o))
        else
          (parseSignedDigits rest).map (fun o => (l, none, o))
      | [] => none := by
  simp [matchPitch, hl]

/-- `toUpper` keeps pitch letters inside the letter class. -/
lemma isPitchLetter_toUpper (l : Char) (hl : l ∈ pitchLetters) :
    isPitchLetter l.toUpper = true := by
  fin_cases hl <;> decide

lemma isPitchLetter_of_mem (l : Char) (hl : l ∈ pitchLetters) :
    isPitchLetter l = true := by
  fin_cases hl <;> decide

/-- `fromChars` is invariant under uppercasing a leading pitch letter. -/
lemma fromChars_toUpper (l : Char) (hl : l ∈ pitchLetters) (rest : List Char) :
    fromChars (l :: rest) = fromChars (l.toUpper :: rest) := by
  have h1 := matchPitch_cons l (isPitchLetter_of_mem l hl) rest
  have h2 := matchPitch_cons l.toUpper (isPitchLetter_toUpper l hl) rest
  match rest with
  | [] => simp [fromChars, h1, h2]
  | a :: rest2 =>
    by_cases hacc : isAccidentalChar a = true
    · simp only [fromChars, h1, h2, hacc, if_pos]
      cases parseSignedDigits rest2 with
      | none => rfl
      | some o => exact fromParts_toUpper l hl (some a) o
    · simp only [fromChars, h1, h2, hacc, if_neg, Bool.false_eq_true,
        not_false_iff]
      cases parseSignedDigits (a :: rest2) with
      | none => rfl
      | some o => exact fromParts_toUpper l hl none o

/-- C10: pitch parsing normalizes its input.  For every spelling
`letter accidental? suffix` whose letter is any of `A-Ga-g` and whose
accidental is ASCII or Unicode, `from_string`'s result on the
character list equals its result on the normalized spelling (letter
uppercased, accidental replaced by ASCII `#`/`b`) — the two spellings
succeed or fail together with identical `Pitch` values; and concretely
`from_string "c♯4" = from_string "C#4" = ok ⟨"C#", 4, 61⟩`. -/
theorem c10_pitch_normalization :
    (∀ (l : Char) (a : Option Char) (ds : List Char),
      l ∈ pitchLetters →
      (a = none ∨ ∃ c ∈ accidentalChars, a = some c) →
      fromChars (l :: a.toList ++ ds) =
        fromChars (l.toUpper :: (a.map asciiAccidental).toList ++ ds)) ∧
    Pitch.from_string "c♯4" = Pitch.from_string "C#4" ∧
    Pitch.from_string "c♯4" = .ok ⟨"C#", 4, 61⟩ := by
  refine ⟨?_, rfl, rfl⟩
  intro l a ds hl ha
  rcases ha with rfl | ⟨c, hc, rfl⟩
  · exact fromChars_toUpper l hl ds
  · have h1 := matchPitch_cons l (isPitchLetter_of_mem l hl) (c :: ds)
    have h2 := matchPitch_cons l.toUpper (isPitchLetter_toUpper l hl)
      (asciiAccidental c :: ds)
    have hacc : isAccidentalChar c = true := by fin_cases hc <;> decide
    have hacc2 : isAccidentalChar (asciiAccidental c) = true := by
      fin_cases hc <;> decide
    simp only [Option.toList, Option.map, List.cons_append, List.nil_append,
      fromChars, h1, h2, hacc, hacc2, if_pos]
    cases parseSignedDigits ds with
    | none => rfl
    | some o =>
      exact (fromParts_asciiAccidental l c hc o).trans
        (fromParts_toUpper l hl (some (asciiAccidental c)) o)

/-- C10 witness: the quantified normalization applied to the concrete
lowercase/Unicode spelling `c♯4`. -/
theorem c10_pitch_normalization_witness :
    fromChars ('c' :: (some '♯').toList ++ ['4']) =
      fromChars ('c'.toUpper :: ((some '♯').map asciiAccidental).toList ++ ['4']) :=
  c10_pitch_normalization.1 'c' (some '♯') ['4'] (by decide)
    (Or.inr ⟨'♯', by decide, rfl⟩)

/-!
## Bar layout engine (`sml_ast.py`: `Bar.layout`, `ClipBar.layout`)
-/

/-- A bar item as seen by `layout`: a note or rest whose `duration.units`
is already computed (`durationSpecUnits`), with the two fields the layout
pass fills in (`start_unit`, `duration_units`). -/
structure BarItemM where
  isRest : Bool
  durationSpecUnits : ℤ
  start_unit : Option ℤ := none
  duration_units : Option ℤ := none
  deriving DecidableEq, Repr

/-- The cursor loop of `Bar.layout` / `ClipBar.layout`: assign
`start_unit := cursor`, `duration_units := duration.units`, advance the
cursor.  Returns the laid-out items and the final cursor. -/
def layoutItems (cursor : ℤ) : List BarItemM → List BarItemM × ℤ
  | [] => ([], cursor)
  | it :: rest =>
    let it' := { it with start_unit := some cursor,
                         duration_units := some it.durationSpecUnits }
    let r := layoutItems (cursor + it.durationSpecUnits) rest
    (it' :: r.1, r.2)

/-- `Bar.layout` (identical in `ClipBar.layout`): run the cursor loop from
0, then fail with `Bar overflow` when the final cursor exceeds
`units_per_bar`. -/
def layout (items : List BarItemM) (units_per_bar : ℤ) :
    Except String (List BarItemM) :=
  let r := layoutItems 0 items
  if r.2 > units_per_bar then .error "Bar overflow" else .ok r.1

lemma layoutItems_snd (cursor : ℤ) (items : List BarItemM) :
    (layoutItems cursor items).2 =
      cursor + (items.map (·.durationSpecUnits)).sum := by
  induction items generalizing cursor with
  | nil => simp [layoutItems]
  | cons it rest ih => simp [layoutItems, ih]; ring

lemma layoutItems_get? (cursor : ℤ) (items : List BarItemM) (i : ℕ) :
    (layoutItems cursor items).1.get? i =
      (items.get? i).map (fun it =>
        { it with
          start_unit :=
            some (cursor + ((items.take i).map (·.durationSpecUnits)).sum),
          duration_units := some it.durationSpecUnits }) := by
  induction items generalizing cursor i with
  | nil => simp [layoutItems]
  | cons it rest ih =>
    cases i with
    | zero => simp [layoutItems]
    | succ n =>
      simp only [layoutItems, List.get?_cons_succ, List.take_succ_cons,
        List.map_cons, List.sum_cons]
      rw [ih]
      cases rest.get? n with
      | none => simp
      | some v => simp; ring_nf

lemma layoutItems_idem (cursor : ℤ) (items : List BarItemM) :
    layoutItems cursor (layoutItems cursor items).1 =
      layoutItems cursor items := by
  induction items generalizing cursor with
  | nil => rfl
  | cons it rest ih => simp [layoutItems, ih]

/-- C5: bar layout assigns each item's start offset as the sum of the
preceding items' duration units (a cursor accumulated from 0), fails with
`Bar overflow` exactly when the total duration exceeds `units_per_bar`
(and otherwise succeeds), the final cursor always equals the sum of all
duration units, and layout is idempotent: rerunning it on the laid-out
items reproduces them (identical offsets). -/
theorem c5_bar_layout (items : List BarItemM) (upb : ℤ) :
    ((∃ laid, layout items upb = .ok laid) ↔
        (items.map (·.durationSpecUnits)).sum ≤ upb) ∧
    ((layout items upb = .error "Bar overflow") ↔
        (items.map (·.durationSpecUnits)).sum > upb) ∧
    (layoutItems 0 items).2 = (items.map (·.durationSpecUnits)).sum ∧
    (∀ laid, layout items upb = .ok laid →
      (∀ i : ℕ, laid.get? i = (items.get? i).map (fun it =>
        { it with
          start_unit := some (((items.take i).map (·.durationSpecUnits)).sum),
          duration_units := some it.durationSpecUnits })) ∧
      layout laid upb = .ok laid) := by
  have hsnd : (layoutItems 0 items).2 =
      (items.map (·.durationSpecUnits)).sum := by
    simpa using layoutItems_snd 0 items
  refine ⟨?_, ?_, hsnd, ?_⟩
  · constructor
    · rintro ⟨laid, hlaid⟩
      by_contra hgt
      simp only [layout, hsnd] at hlaid
      rw [if_pos (by omega)] at hlaid
      exact absurd hlaid (by simp)
    · intro hle
      exact ⟨(layoutItems 0 items).1, by simp only [layout, hsnd]; rw [if_neg (by omega)]⟩
  · constructor
    · intro herr
      by_contra hle
      simp only [layout, hsnd] at herr
      rw [if_neg (by omega)] at herr
      exact absurd herr (by simp)
    · intro hgt
      simp only [layout, hsnd]
      rw [if_pos (by omega)]
  · intro laid hlaid
    have hok : laid = (layoutItems 0 items).1 := by
      simp only [layout] at hlaid
      by_cases hc : (layoutItems 0 items).2 > upb
      · rw [if_pos hc] at hlaid; exact absurd hlaid (by simp)
      · rw [if_neg hc] at hlaid
        exact (Except.ok.inj hlaid).symm
    constructor
    · intro i
      rw [hok]
      simpa using layoutItems_get? 0 items i
    · have hcur : ¬ (layoutItems 0 items).2 > upb := by
        simp only [layout] at hlaid
        by_contra hc
        rw [if_pos hc] at hlaid
        exact absurd hlaid (by simp)
      have hre : layoutItems 0 laid = layoutItems 0 items := by
        rw [hok]; exact layoutItems_idem 0 items
      simp only [layout, hre]
      rw [if_neg hcur, hok]

/-- Four quarter notes (8 units each) in a 32-unit bar, unlaid. -/
def c5ExampleItems : List BarItemM :=
  [⟨false, 8, none, none⟩, ⟨false, 8, none, none⟩,
   ⟨false, 8, none, none⟩, ⟨true, 8, none, none⟩]

/-- C5 witness: `c5_bar_layout` at the four-quarter-note bar: layout
succeeds with offsets `[0, 8, 16, 24]` and is idempotent there. -/
theorem c5_bar_layout_witness :
    (∃ laid, layout c5ExampleItems 32 = .ok laid) ∧
    ∀ laid, layout c5ExampleItems 32 = .ok laid →
      laid.get? 2 = some ⟨false, 8, some 16, some 8⟩ ∧
      layout laid 32 = .ok laid := by
  refine ⟨(c5_bar_layout c5ExampleItems 32).1.mpr (by decide), ?_⟩
  intro laid hlaid
  have h := (c5_bar_layout c5ExampleItems 32).2.2.2 laid hlaid
  exact ⟨by rw [h.1 2]; rfl, h.2⟩

/-!
## Flat-note ingestion (`dsl_parser.py`: `DSLParser._notes_to_clipbars`)
-/

/-- An input note of the DSL clip library: `{"pitch", "start_beat",
"duration_beats", "is_rest"}`. -/
structure NoteIn where
  pitch : ℤ
  start_beat : ℚ
  duration_beats : ℚ
  is_rest : Bool
  deriving DecidableEq, Repr

/-- A bucketed note as stored on a clip bar: the copy with
`start = start_beat % beats_per_bar`, `duration = duration_beats`,
`absolute_pitch = pitch` (and the original `is_rest` kept by the copy). -/
structure NoteOut where
  absolute_pitch : ℤ
  start : ℚ
  duration : ℚ
  is_rest : Bool
  deriving DecidableEq, Repr

/-- `int(start_beat // beats_per_bar)`: the bar bucket of a note. -/
def noteBarIndex (bpb : ℚ) (n : NoteIn) : ℤ := ⌊n.start_beat / bpb⌋

/-- The per-note copy built inside `_notes_to_clipbars`. -/
def noteToBarRelative (bpb : ℚ) (n : NoteIn) : NoteOut :=
  ⟨n.pitch, pyMod n.start_beat bpb, n.duration_beats, n.is_rest⟩

/-- A clip bar as produced by the flat-note path: a bar index and the
attached `_notes` payload. -/
structure ClipBarN where
  bar_index : ℤ
  notes : List NoteOut
  deriving DecidableEq, Repr

/-- `DSLParser._notes_to_clipbars`: bucket the flat note list into bars by
`bar_index = int(start_beat // beats_per_bar)`, each note copied with a
bar-relative `start`; one `ClipBar` per distinct bucket, in ascending
bucket order (`sorted(bars_dict.keys())`), notes kept in input order
within a bucket (dict insertion order). -/
def notesToClipbars (notes : List NoteIn) (bpb : ℚ) : List ClipBarN :=
  let keys := (notes.map (noteBarIndex bpb)).dedup
  let sortedKeys := keys.insertionSort (· ≤ ·)
  sortedKeys.map (fun k =>
    ⟨k, (notes.filter (fun n => noteBarIndex bpb n == k)).map
          (noteToBarRelative bpb)⟩)

lemma sum_filter_lengths (f : NoteIn → ℤ) (l : List NoteIn) (ks : List ℤ)
    (hnd : ks.Nodup) (hcov : ∀ a ∈ l, f a ∈ ks) :
    (ks.map (fun k => ((l.filter (fun a => f a == k)).length : ℤ))).sum =
      l.length := by
  induction l with
  | nil => simp
  | cons a rest ih =>
    have hcov' : ∀ x ∈ rest, f x ∈ ks := fun x hx => hcov x (List.mem_cons_of_mem a hx)
    have hone : (ks.map (fun k => if f a = k then (1 : ℤ) else 0)).sum = 1 := by
      have hmem : f a ∈ ks := hcov a (List.mem_cons_self a rest)
      clear hcov hcov' ih
      induction ks with
      | nil => simp at hmem
      | cons k ks ih2 =>
        rcases List.mem_cons.mp hmem with rfl | hmem2
        · have hnot : f a ∉ ks := (List.nodup_cons.mp hnd).1
          have : (ks.map (fun k => if f a = k then (1 : ℤ) else 0)).sum = 0 := by
            rw [List.sum_eq_zero]
            intro x hx
            obtain ⟨k', hk', rfl⟩ := List.mem_map.mp hx
            by_cases hek : f a = k' <;> simp [hek]
            exact absurd (hek ▸ hk') hnot
          simp [this]
        · have hne : f a ≠ k := by
            rintro rfl; exact (List.nodup_cons.mp hnd).1 hmem2
          simp only [List.map_cons, List.sum_cons, if_neg hne,
            ih2 (List.nodup_cons.mp hnd).2 hmem2, zero_add]
    have hsplit : ∀ k : ℤ,
        (((a :: rest).filter (fun x => f x == k)).length : ℤ) =
          (if f a = k then (1 : ℤ) else 0) +
            ((rest.filter (fun x => f x == k)).length : ℤ) := by
      intro k
      by_cases h : f a = k
      · simp [List.filter_cons, h]; ring
      · simp [List.filter_cons, beq_eq_false_iff_ne.mpr h, h]
    calc (ks.map (fun k => (((a :: rest).filter (fun x => f x == k)).length : ℤ))).sum
        = (ks.map (fun k => (if f a = k then (1 : ℤ) else 0) +
            ((rest.filter (fun x => f x == k)).length : ℤ))).sum := by
          congr 1; exact List.map_congr_left (fun k _ => hsplit k)
      _ = (ks.map (fun k => if f a = k then (1 : ℤ) else 0)).sum +
            (ks.map (fun k => ((rest.filter (fun x => f x == k)).length : ℤ))).sum := by
          rw [← List.sum_map_add]
      _ = 1 + rest.length := by rw [hone, ih hcov']
      _ = ((a :: rest).length : ℤ) := by simp; ring

/-- C8: the flat-note policy buckets every note into the bar with index
`⌊start_beat / beats_per_bar⌋`, with bar-relative start
`start_beat mod beats_per_bar` (which lies in `[0, beats_per_bar)`), the
note's duration and pitch unchanged — no truncation or splitting of a
note whose duration crosses the bar boundary — and no capacity
validation: the function totals over every input (the bars collectively
hold exactly the input notes, one output note per input note, regardless
of how much time a bucket's notes occupy). -/
theorem c8_flat_note_bucketing (notes : List NoteIn) (bpb : ℚ) (hb : 0 < bpb) :
    (∀ n ∈ notes, ∃ bar ∈ notesToClipbars notes bpb,
      bar.bar_index = ⌊n.start_beat / bpb⌋ ∧
      noteToBarRelative bpb n ∈ bar.notes ∧
      (noteToBarRelative bpb n).start = n.start_beat - bpb * ⌊n.start_beat / bpb⌋ ∧
      0 ≤ (noteToBarRelative bpb n).start ∧
      (noteToBarRelative bpb n).start < bpb ∧
      (noteToBarRelative bpb n).duration = n.duration_beats ∧
      (noteToBarRelative bpb n).absolute_pitch = n.pitch) ∧
    ((notesToClipbars notes bpb).map (fun b => (b.notes.length : ℤ))).sum =
      notes.length := by
  constructor
  · intro n hn
    have hkey : noteBarIndex bpb n ∈
        ((notes.map (noteBarIndex bpb)).dedup.insertionSort (· ≤ ·)) := by
      rw [List.Perm.mem_iff (List.perm_insertionSort _ _)]
      rw [List.mem_dedup]
      exact List.mem_map_of_mem (noteBarIndex bpb) hn
    refine ⟨⟨noteBarIndex bpb n,
      (notes.filter (fun m => noteBarIndex bpb m == noteBarIndex bpb n)).map
        (noteToBarRelative bpb)⟩, ?_, rfl, ?_, ?_, ?_, ?_, rfl, rfl⟩
    · exact List.mem_map_of_mem _ hkey
    · exact List.mem_map_of_mem _ (List.mem_filter.mpr ⟨hn, by simp⟩)
    · rfl
    · have := Int.fract_nonneg (n.start_beat / bpb)
      have heq : pyMod n.start_beat bpb = bpb * Int.fract (n.start_beat / bpb) := by
        unfold pyMod Int.fract
        field_simp
      unfold noteToBarRelative
      rw [heq]
      positivity
    · have hlt := Int.fract_lt_one (n.start_beat / bpb)
      have heq : pyMod n.start_beat bpb = bpb * Int.fract (n.start_beat / bpb) := by
        unfold pyMod Int.fract
        field_simp
      show pyMod n.start_beat bpb < bpb
      rw [heq]
      calc bpb * Int.fract (n.start_beat / bpb) < bpb * 1 := by
            exact mul_lt_mul_of_pos_left hlt hb
        _ = bpb := mul_one bpb
  · unfold notesToClipbars
    simp only [List.map_map]
    have : ((((notes.map (noteBarIndex bpb)).dedup.insertionSort (· ≤ ·)).map
        (fun k => (((notes.filter (fun n => noteBarIndex bpb n == k)).map
          (noteToBarRelative bpb)).length : ℤ))).sum) = notes.length := by
      have hperm : ((notes.map (noteBarIndex bpb)).dedup.insertionSort (· ≤ ·)).Perm
          ((notes.map (noteBarIndex bpb)).dedup) := List.perm_insertionSort _ _
      rw [List.Perm.sum_eq (List.Perm.map _ hperm)]
      simp only [List.length_map]
      exact sum_filter_lengths (noteBarIndex bpb) notes _
        (List.nodup_dedup _)
        (fun a ha => List.mem_dedup.mpr (List.mem_map_of_mem _ ha))
    exact this

/-- C8 witness: `c8_flat_note_bucketing` on the example clip: a note at
beat 5.0 of a 4-beat bar lands in bar 1 at relative beat 1, duration
intact. -/
theorem c8_flat_note_bucketing_witness :
    ∃ bar ∈ notesToClipbars [⟨60, 0, 1, false⟩, ⟨64, 5, 6, false⟩] 4,
      bar.bar_index = ⌊(5 : ℚ) / 4⌋ ∧
      noteToBarRelative 4 ⟨64, 5, 6, false⟩ ∈ bar.notes ∧
      (noteToBarRelative 4 ⟨64, 5, 6, false⟩).start = 5 - 4 * ⌊(5 : ℚ) / 4⌋ ∧
      0 ≤ (noteToBarRelative 4 ⟨64, 5, 6, false⟩).start ∧
      (noteToBarRelative 4 ⟨64, 5, 6, false⟩).start < 4 ∧
      (noteToBarRelative 4 ⟨64, 5, 6, false⟩).duration = 6 ∧
      (noteToBarRelative 4 ⟨64, 5, 6, false⟩).absolute_pitch = 64 :=
  (c8_flat_note_bucketing [⟨60, 0, 1, false⟩, ⟨64, 5, 6, false⟩] 4
    (by norm_num)).1 ⟨64, 5, 6, false⟩ (by simp)

/-!
## Track assembly and bar overrides (`dsl_parser.py`: `DSLParser._parse_track`,
`DSLParser._apply_bar_overrides`; `sml_ast.py`: `composition_from_smil_dict`)
-/

/-- A point of an expression curve (`{"time": ..., "value": ...}`). -/
structure CurvePt where
  time : ℚ
  value : ℚ
  deriving DecidableEq, Repr

/-- `BarExpressionModel` (bar-level expression curves).  `pedal_events`
entries and `metadata` carry more fields in the source; only their
presence/identity matters to the verified claims, so they are modelled as
point lists and string pairs. -/
structure BarExpressionModel where
  velocity_curve : Option (List CurvePt) := none
  cc : Option (List (ℤ × List CurvePt)) := none
  pitch_bend_curve : Option (List CurvePt) := none
  aftertouch_curve : Option (List CurvePt) := none
  pedal_events : Option (List CurvePt) := none
  metadata : Option (List (String × String)) := none
  deriving DecidableEq, Repr

/-- A DSL `bar_override` entry.  The source's `cc_lanes` dict has decimal
string keys converted by `int(k)`; they are modelled as the integers they
denote. -/
structure BarOverride where
  bar_index : ℤ
  velocity_curve : Option (List CurvePt) := none
  cc_lanes : Option (List (ℤ × List CurvePt)) := none
  pitch_bend_curve : Option (List CurvePt) := none
  aftertouch_curve : Option (List CurvePt) := none
  pedal_events : Option (List CurvePt) := none
  metadata : Option (List (String × String)) := none
  deriving DecidableEq, Repr

/-- A clip bar as held in the parser's clip library: bucketed `_notes`
plus the (overridable) expression model. -/
structure ClipBarA where
  bar_index : ℤ
  notes : List NoteOut := []
  expression : Option BarExpressionModel := none
  deriving DecidableEq, Repr

/-- A clip of the parser's `clip_library`. -/
structure Clip where
  clip_id : ℤ
  name : String := ""
  bars : List ClipBarA := []
  deriving DecidableEq, Repr

/-- `TrackBarRef` (spec §2.4): a placement, not a copy. -/
structure TrackBarRef where
  bar_index : ℤ
  clip_id : ℤ
  clip_bar_index : ℤ
  deriving DecidableEq, Repr

/-- A DSL clip instance on a track. -/
structure ClipInstance where
  clip_id : ℤ
  start_bar : ℤ := 1
  length_bars : ℕ := 1
  bar_overrides : List BarOverride := []
  deriving DecidableEq, Repr

/-- The `BarExpressionModel` built from an override inside
`_apply_bar_overrides` (empty or absent `cc_lanes` stays `None`). -/
def mkBarExpr (ov : BarOverride) : BarExpressionModel :=
  { velocity_curve := ov.velocity_curve
    cc := match ov.cc_lanes with
          | some lanes => if lanes.isEmpty then none else some lanes
          | none => none
    pitch_bend_curve := ov.pitch_bend_curve
    aftertouch_curve := ov.aftertouch_curve
    pedal_events := ov.pedal_events
    metadata := ov.metadata }

/-- The in-place `clip_bar.expression = bar_expr` assignment: set the
expression of the first bar whose `bar_index` matches (the `for`/`break`
search); leave the list unchanged when no bar matches (`continue`). -/
def setBarExpr (bars : List ClipBarA) (idx : ℤ) (e : BarExpressionModel) :
    List ClipBarA :=
  match bars with
  | [] => []
  | b :: rest =>
    if b.bar_index = idx then { b with expression := some e } :: rest
    else b :: setBarExpr rest idx e

/-- `DSLParser._apply_bar_overrides`: apply each override in order to the
clip's bars (mutating the clip, modelled by returning the updated clip). -/
def applyBarOverrides (clip : Clip) (ovs : List BarOverride) : Clip :=
  ovs.foldl
    (fun c ov => { c with bars := setBarExpr c.bars ov.bar_index (mkBarExpr ov) })
    clip

/-- The in-place update of the shared `clip_library` entry (Python mutates
the object held in the dict; state-passing model replaces it). -/
def updateClip (lib : List Clip) (cid : ℤ) (f : Clip → Clip) : List Clip :=
  lib.map (fun c => if c.clip_id = cid then f c else c)

/-- The `TrackBarRef` run that `_parse_track` emits for one clip instance:
`bar_index = start_bar + i`, `clip_bar_index = i % len(clip.bars) if
clip.bars else 0`. -/
def dslInstanceRefs (barsCount : ℕ) (inst : ClipInstance) : List TrackBarRef :=
  (List.range inst.length_bars).map (fun i : ℕ =>
    ⟨inst.start_bar + (i : ℤ), inst.clip_id,
     if barsCount = 0 then 0 else (i : ℤ) % (barsCount : ℤ)⟩)

/-- The `TrackBarRef` run that `composition_from_smil_dict` emits for one
clip instance: `bar_index = start_bar + i`, `clip_bar_index = i`
(0-based, no modulo — the user must ensure the clip has enough bars). -/
def smlInstanceRefs (inst : ClipInstance) : List TrackBarRef :=
  (List.range inst.length_bars).map (fun i : ℕ =>
    ⟨inst.start_bar + (i : ℤ), inst.clip_id, (i : ℤ)⟩)

/-- `DSLParser._parse_track`: for each clip instance, look the clip up in
the shared library (error when missing), apply its bar overrides to the
shared clip, and append one `TrackBarRef` per covered bar.  Returns the
(possibly mutated) library together with the track's bar refs. -/
def parseTrackGo (lib : List Clip) (acc : List TrackBarRef) :
    List ClipInstance → Except String (List Clip × List TrackBarRef)
  | [] => .ok (lib, acc)
  | inst :: rest =>
    match lib.find? (fun c => c.clip_id == inst.clip_id) with
    | none => .error "Clip not found in clip_library"
    | some clip =>
      let lib' :=
        if inst.bar_overrides.isEmpty then lib
        else updateClip lib inst.clip_id
          (fun c => applyBarOverrides c inst.bar_overrides)
      parseTrackGo lib' (acc ++ dslInstanceRefs clip.bars.length inst) rest

def parseTrack (lib : List Clip) (insts : List ClipInstance) :
    Except String (List Clip × List TrackBarRef) :=
  parseTrackGo lib [] insts

/-- Setting a bar's expression changes no bar index and no note. -/
lemma setBarExpr_shape (bars : List ClipBarA) (idx : ℤ) (e : BarExpressionModel) :
    (setBarExpr bars idx e).map (fun b => (b.bar_index, b.notes)) =
      bars.map (fun b => (b.bar_index, b.notes)) := by
  induction bars with
  | nil => rfl
  | cons b rest ih =>
    by_cases h : b.bar_index = idx
    · simp [setBarExpr, h]
    · simp [setBarExpr, h, ih]

lemma applyBarOverrides_clip_id (clip : Clip) (ovs : List BarOverride) :
    (applyBarOverrides clip ovs).clip_id = clip.clip_id := by
  induction ovs generalizing clip with
  | nil => rfl
  | cons ov rest ih => simpa [applyBarOverrides, List.foldl_cons] using ih _

lemma applyBarOverrides_shape (clip : Clip) (ovs : List BarOverride) :
    (applyBarOverrides clip ovs).bars.map (fun b => (b.bar_index, b.notes)) =
      clip.bars.map (fun b => (b.bar_index, b.notes)) := by
  induction ovs generalizing clip with
  | nil => rfl
  | cons ov rest ih =>
    unfold applyBarOverrides at *
    rw [List.foldl_cons, ih]
    exact setBarExpr_shape clip.bars ov.bar_index (mkBarExpr ov)

/-- The library update performed for an instance's overrides replaces the
found clip with its override-applied version at the same position. -/
lemma find?_updateClip (lib : List Clip) (cid : ℤ) (f : Clip → Clip)
    (hpres : ∀ c, (f c).clip_id = c.clip_id) (clip : Clip)
    (hfind : lib.find? (fun c => c.clip_id == cid) = some clip) :
    (updateClip lib cid f).find? (fun c => c.clip_id == cid) = some (f clip) := by
  induction lib with
  | nil => simp at hfind
  | cons c rest ih =>
    by_cases h : c.clip_id = cid
    · rw [List.find?_cons_of_pos _ (by simp [h])] at hfind
      have hc : c = clip := Option.some.inj hfind
      subst hc
      simp only [updateClip, List.map_cons, if_pos h]
      exact List.find?_cons_of_pos _ (by simp [hpres, h])
    · rw [List.find?_cons_of_neg _ (by simp [h])] at hfind
      simp only [updateClip, List.map_cons, if_neg h]
      rw [List.find?_cons_of_neg _ (by simp [h])]
      exact ih hfind

/-- C2 counterexample data: a one-bar clip in the shared library, a
placement of it carrying a velocity/cc/pitch-bend override on bar 0. -/
def c2Ov : BarOverride :=
  { bar_index := 0
    velocity_curve := some [⟨0, 70⟩, ⟨4, 110⟩]
    cc_lanes := some [(1, [⟨0, 64⟩]), (11, [⟨0, 100⟩])]
    pitch_bend_curve := some [⟨0, 0⟩, ⟨2, 100⟩]
    metadata := some [("tag", "crescendo")] }

def c2Clip : Clip := ⟨4, "synth-lead", [⟨0, [⟨72, 0, 2, false⟩], none⟩]⟩

def c2Inst : ClipInstance := ⟨4, 1, 1, [c2Ov]⟩

/-- The library clip after `_parse_track` has processed the placement. -/
def c2ClipAfter : Clip :=
  ⟨4, "synth-lead", [⟨0, [⟨72, 0, 2, false⟩], some (mkBarExpr c2Ov)⟩]⟩

/-- C2 counterexample: track assembly of a placement with a bar override
mutates the shared library `Clip`: before assembly the library clip's bar
has no expression curves, after assembly it carries the override's
curves — the claim that the library's clip bars are unchanged is false.
(The repository's own `test_bar_overrides` asserts exactly this mutation.) -/
theorem c2_counterexample :
    parseTrack [c2Clip] [c2Inst] =
      .ok ([c2ClipAfter], [⟨1, 4, 0⟩]) ∧
    (c2Clip.bars.map (fun b => b.expression) = [none]) ∧
    (c2ClipAfter.bars.map (fun b => b.expression) = [some (mkBarExpr c2Ov)]) ∧
    c2ClipAfter ≠ c2Clip := by
  refine ⟨rfl, rfl, rfl, by decide⟩

/-- C2 (amended): `_apply_bar_overrides` is applied to the shared library
`Clip` itself, not to a placement-scoped copy: after `_parse_track`
processes a placement, looking the clip up in the library yields the
override-applied clip (so a later placement of the same `clip_id` sees
the first placement's curves); the mutation touches only the bars'
`expression` — bar indices and notes are unchanged — and it sets the
expression of the first bar whose `bar_index` matches the override. -/
theorem c2_overrides_mutate_shared_clip :
    (∀ (lib : List Clip) (inst : ClipInstance) (clip : Clip) lib' refs,
      lib.find? (fun c => c.clip_id == inst.clip_id) = some clip →
      parseTrack lib [inst] = .ok (lib', refs) →
      lib'.find? (fun c => c.clip_id == inst.clip_id) =
        some (applyBarOverrides clip inst.bar_overrides)) ∧
    (∀ (clip : Clip) (ovs : List BarOverride),
      (applyBarOverrides clip ovs).clip_id = clip.clip_id ∧
      (applyBarOverrides clip ovs).bars.map (fun b => (b.bar_index, b.notes)) =
        clip.bars.map (fun b => (b.bar_index, b.notes))) ∧
    (∀ (bars : List ClipBarA) (idx : ℤ) (e : BarExpressionModel) (i : ℕ) b,
      bars.get? i = some b → b.bar_index = idx →
      (∀ j bj, j < i → bars.get? j = some bj → bj.bar_index ≠ idx) →
      (setBarExpr bars idx e).get? i = some { b with expression := some e }) := by
  refine ⟨?_, fun clip ovs => ⟨applyBarOverrides_clip_id clip ovs,
    applyBarOverrides_shape clip ovs⟩, ?_⟩
  · intro lib inst clip lib' refs hfind hparse
    simp only [parseTrack, parseTrackGo, hfind] at hparse
    by_cases hov : inst.bar_overrides.isEmpty
    · rw [if_pos hov] at hparse
      obtain ⟨h1, _⟩ := Prod.mk.injEq .. ▸ Except.ok.inj hparse
      rw [← h1, List.isEmpty_iff.mp hov]
      exact hfind
    · rw [if_neg hov] at hparse
      obtain ⟨h1, _⟩ := Prod.mk.injEq .. ▸ Except.ok.inj hparse
      rw [← h1]
      exact find?_updateClip lib inst.clip_id _
        (fun c => applyBarOverrides_clip_id c inst.bar_overrides) clip hfind
  · intro bars idx e i b hget hbidx hfirst
    induction bars generalizing i with
    | nil => simp at hget
    | cons b0 rest ih =>
      cases i with
      | zero =>
        have hb : b0 = b := Option.some.inj hget
        subst hb
        simp [setBarExpr, hbidx]
      | succ n =>
        have hne : b0.bar_index ≠ idx :=
          hfirst 0 b0 (Nat.succ_pos n) rfl
        simp only [setBarExpr, if_neg hne, List.get?_cons_succ]
        exact ih n (by simpa using hget)
          (fun j bj hj hgj => hfirst (j + 1) bj (by omega) (by simpa using hgj))

/-- C2 witness: `c2_overrides_mutate_shared_clip` applied to the concrete
library and placement of `c2_counterexample`. -/
theorem c2_overrides_mutate_shared_clip_witness :
    [c2ClipAfter].find? (fun c => c.clip_id == c2Inst.clip_id) =
      some (applyBarOverrides c2Clip c2Inst.bar_overrides) :=
  c2_overrides_mutate_shared_clip.1 [c2Clip] c2Inst c2Clip [c2ClipAfter]
    [⟨1, 4, 0⟩] rfl rfl

/-- C4 counterexample: `composition_from_smil_dict` does not cycle
`clip_bar_index` modulo the clip's bar count: for a one-bar clip placed
with `length_bars = 2`, the second reference's `clip_bar_index` is 1,
whereas `i mod bar-count` is `1 mod 1 = 0` (the reference points past the
end of the clip instead of cycling). -/
theorem c4_counterexample :
    (⟨8, "lead-riff", [⟨0, [], none⟩]⟩ : Clip).bars.length = 1 ∧
    (smlInstanceRefs ⟨8, 1, 2, []⟩).map (fun r => r.clip_bar_index) = [0, 1] ∧
    (1 : ℤ) % (1 : ℤ) = 0 ∧ ((1 : ℤ) ≠ 0) := by
  refine ⟨rfl, rfl, by decide, by decide⟩

/-- C4 (amended): both track-assembly paths emit exactly `length_bars`
references covering absolute bars `start_bar .. start_bar+L-1` in order;
the DSL parser's path (`_parse_track`) sets the i-th reference's
`clip_bar_index` to `i mod (clip bar count)` (cycling, 0 for an empty
clip), and `_parse_track`'s refs for an instance are exactly that run for
the library clip's bar count; but `composition_from_smil_dict`'s path
sets `clip_bar_index` to `i` without any modulo, relying on the clip
having at least `length_bars` bars. -/
theorem c4_track_assembly :
    (∀ (cnt : ℕ) (inst : ClipInstance), 0 < cnt →
      (dslInstanceRefs cnt inst).length = inst.length_bars ∧
      ∀ i : ℕ, i < inst.length_bars →
        (dslInstanceRefs cnt inst).get? i =
          some ⟨inst.start_bar + i, inst.clip_id, (i : ℤ) % cnt⟩) ∧
    (∀ inst : ClipInstance,
      (smlInstanceRefs inst).length = inst.length_bars ∧
      ∀ i : ℕ, i < inst.length_bars →
        (smlInstanceRefs inst).get? i =
          some ⟨inst.start_bar + i, inst.clip_id, (i : ℤ)⟩) ∧
    (∀ (lib : List Clip) (inst : ClipInstance) (clip : Clip) lib' refs,
      lib.find? (fun c => c.clip_id == inst.clip_id) = some clip →
      parseTrack lib [inst] = .ok (lib', refs) →
      refs = dslInstanceRefs clip.bars.length inst) := by
  refine ⟨?_, ?_, ?_⟩
  · intro cnt inst hcnt
    refine ⟨by simp [dslInstanceRefs], ?_⟩
    intro i hi
    have hr : (List.range inst.length_bars)[i]? = some i := List.getElem?_range hi
    simp [dslInstanceRefs, List.get?_eq_getElem?, List.getElem?_map, hr,
      Nat.pos_iff_ne_zero.mp hcnt]
  · intro inst
    refine ⟨by simp [smlInstanceRefs], ?_⟩
    intro i hi
    have hr : (List.range inst.length_bars)[i]? = some i := List.getElem?_range hi
    simp [smlInstanceRefs, List.get?_eq_getElem?, List.getElem?_map, hr]
  · intro lib inst clip lib' refs hfind hparse
    simp only [parseTrack, parseTrackGo, hfind] at hparse
    obtain ⟨_, h2⟩ := Prod.mk.injEq .. ▸ Except.ok.inj hparse
    simpa using h2.symm

/-- C4 witness: the DSL path at a one-bar clip placed for two bars — the
second reference cycles back to clip bar 0 — and the SML path at the same
placement. -/
theorem c4_track_assembly_witness :
    (dslInstanceRefs 1 ⟨8, 1, 2, []⟩).get? 1 = some ⟨2, 8, (1 : ℤ) % (1 : ℕ)⟩ ∧
    (smlInstanceRefs ⟨8, 1, 2, []⟩).get? 1 = some ⟨2, 8, 1⟩ :=
  ⟨(c4_track_assembly.1 1 ⟨8, 1, 2, []⟩ (by decide)).2 1 (by decide),
   (c4_track_assembly.2.1 ⟨8, 1, 2, []⟩).2 1 (by decide)⟩

/-!
## Batch renderer (`midi_export.py`: `composition_db_dict_to_midi_bytes`,
`_interpolate_curve`)
-/

/-- A MIDI message of the batch renderer (note_on / note_off with
velocity and channel). -/
inductive MidiMsg where
  | noteOn (note : ℤ) (velocity : ℤ) (channel : ℤ)
  | noteOff (note : ℤ) (velocity : ℤ) (channel : ℤ)
  deriving DecidableEq, Repr

/-- A clip bar in the DB dict handed to the renderer: notes plus the
optional flattened `velocity_curve`. -/
structure BarDB where
  bar_index : ℤ
  notes : List NoteOut := []
  velocity_curve : Option (List CurvePt) := none
  deriving DecidableEq, Repr

/-- A clip in the DB dict (`{"id": ..., "bars": [...]}`). -/
structure ClipDB where
  id : ℤ
  bars : List BarDB := []
  deriving DecidableEq, Repr

/-- `bisect.bisect_right(times, t)`: on the sorted lists the callers
build, the insertion point after existing entries equals the length of
the `≤ t` prefix, which is how it is computed here. -/
def bisectRight (times : List ℚ) (t : ℚ) : ℕ :=
  (times.takeWhile (fun x => x ≤ t)).length

/-- `_interpolate_curve(curve, target_time)` from `midi_export.py`: `None`
on an empty curve, clamp to the first/last value outside their times,
otherwise bisect for the bracketing interval and linearly interpolate;
every returned value passes through `int(...)` (truncation toward zero).
The unconditional `times[idx-1]`/`times[idx]` subscripts of the source
(always in range for the sorted curves the callers build) are modelled
with `get?`, `none` standing for the unreachable `IndexError`. -/
def interpolateCurve (curve : List CurvePt) (target_time : ℚ) : Option ℤ :=
  match curve with
  | [] => none
  | p0 :: rest =>
    let pl := (p0 :: rest).getLast (List.cons_ne_nil p0 rest)
    if target_time ≤ p0.time then some (pyTrunc p0.value)
    else if pl.time ≤ target_time then some (pyTrunc pl.value)
    else
      let times := (p0 :: rest).map (fun p => p.time)
      let values := (p0 :: rest).map (fun p => p.value)
      let idx := bisectRight times target_time
      match times.get? (idx - 1), times.get? idx,
            values.get? (idx - 1), values.get? idx with
      | some t0, some t1, some v0, some v1 =>
        if t1 = t0 then some (pyTrunc v0)
        else some (pyTrunc (v0 + (v1 - v0) * ((target_time - t0) / (t1 - t0))))
      | _, _, _, _ => none

/-- The events of one `TrackBarRef` in the batch renderer:  look the clip
up (`clips_by_id` keeps the last clip with a given id), `continue` — i.e.
emit nothing — when the clip is missing or `clip_bar_index` is out of
range, otherwise emit a `(tick, note_on)` / `(tick, note_off)` pair per
non-rest note, `tick = round(absolute_beats * ticks_per_quarter)`, with
the velocity read from the bar’s curve at the note’s bar-relative start
(default 100).  `beats_per_bar` is the renderer’s fixed 4.0. -/
def renderBarRef (clipsById : List ClipDB) (channel tpq : ℤ)
    (ref : TrackBarRef) : List (ℤ × MidiMsg) :=
  match clipsById.reverse.find? (fun c => c.id == ref.clip_id) with
  | none => []
  | some clip =>
    match (if ref.clip_bar_index < 0 then none
           else clip.bars.get? ref.clip_bar_index.toNat) with
    | none => []
    | some bar =>
      let bar_start_beats : ℚ := (ref.bar_index - 1) * 4
      bar.notes.flatMap (fun note =>
        if note.is_rest then []
        else
          let note_start_beats := bar_start_beats + note.start
          let note_end_beats := note_start_beats + note.duration
          let velocity :=
            (match bar.velocity_curve with
             | some vc => interpolateCurve vc note.start
             | none => none).getD 100
          [(pyRound (note_start_beats * tpq),
            MidiMsg.noteOn note.absolute_pitch velocity channel),
           (pyRound (note_end_beats * tpq),
            MidiMsg.noteOff note.absolute_pitch 0 channel)])

/-- The absolute-tick event list of one track (the `for bar_ref in
track_data["bars"]` loop). -/
def renderTrackEvents (clipsById : List ClipDB) (channel tpq : ℤ)
    (refs : List TrackBarRef) : List (ℤ × MidiMsg) :=
  refs.flatMap (renderBarRef clipsById channel tpq)

/-- `events.sort(key=lambda item: item[0])`: Python’s sort is stable;
insertion sort on the tick order is the stable sort of the same key. -/
def sortEventsByTick (evs : List (ℤ × MidiMsg)) : List (ℤ × MidiMsg) :=
  evs.insertionSort (fun a b => a.1 ≤ b.1)

/-- The delta-time emission loop: `delta = abs_tick - last_tick;
msg.time = max(0, delta); last_tick = abs_tick`. -/
def toDeltas (last : ℤ) : List (ℤ × MidiMsg) → List (ℤ × MidiMsg)
  | [] => []
  | (t, m) :: rest => (max 0 (t - last), m) :: toDeltas t rest

/-- One track of the batch render: channel `track_index % 16`, events
collected, stable-sorted by tick, then emitted as clamped deltas. -/
def renderTrack (clipsById : List ClipDB) (track_index tpq : ℤ)
    (refs : List TrackBarRef) : List (ℤ × MidiMsg) :=
  toDeltas 0 (sortEventsByTick
    (renderTrackEvents clipsById (track_index % 16) tpq refs))

/-- A bar reference resolves iff its clip id is in the library and its
`clip_bar_index` is in range of that clip’s bars. -/
def isResolvable (clipsById : List ClipDB) (ref : TrackBarRef) : Bool :=
  match clipsById.reverse.find? (fun c => c.id == ref.clip_id) with
  | none => false
  | some clip =>
    decide (0 ≤ ref.clip_bar_index) &&
      decide (ref.clip_bar_index.toNat < clip.bars.length)

/-- An unresolvable reference renders no events (the `continue` paths). -/
lemma renderBarRef_of_unresolvable (clipsById : List ClipDB) (channel tpq : ℤ)
    (ref : TrackBarRef) (h : isResolvable clipsById ref = false) :
    renderBarRef clipsById channel tpq ref = [] := by
  unfold isResolvable at h
  unfold renderBarRef
  cases hfind : clipsById.reverse.find? (fun c => c.id == ref.clip_id) with
  | none => rfl
  | some clip =>
    rw [hfind] at h
    simp only [Bool.and_eq_false_iff, decide_eq_false_iff_not, not_le,
      not_lt] at h
    have hnone : (if ref.clip_bar_index < 0 then none
        else clip.bars.get? ref.clip_bar_index.toNat) = (none : Option BarDB) := by
      rcases h with h | h
      · rw [if_pos h]
      · by_cases hneg : ref.clip_bar_index < 0
        · rw [if_pos hneg]
        · rw [if_neg hneg, List.get?_eq_none.mpr h]
    simp only [hnone]

/-- C1 (amended): the batch renderer never aborts on an unresolved
reference — a track bar reference whose `clip_id` is missing from the
clips, or whose `clip_bar_index` is out of the referenced clip's bar
range, is silently skipped (it contributes no events), and the events of
a track are exactly those of its resolvable references: a partial stream
is produced. -/
theorem c1_missing_ref_skipped (clipsById : List ClipDB) (channel tpq : ℤ)
    (refs : List TrackBarRef) :
    renderTrackEvents clipsById channel tpq refs =
      renderTrackEvents clipsById channel tpq
        (refs.filter (isResolvable clipsById)) ∧
    ∀ ref ∈ refs, isResolvable clipsById ref = false →
      renderBarRef clipsById channel tpq ref = [] := by
  constructor
  · induction refs with
    | nil => rfl
    | cons r rest ih =>
      by_cases hr : isResolvable clipsById r = true
      · simp only [renderTrackEvents, List.flatMap_cons, List.filter_cons, hr,
          if_true] at ih ⊢
        rw [ih]
      · have hfr : isResolvable clipsById r = false := Bool.eq_false_iff.mpr hr
        simp only [renderTrackEvents, List.flatMap_cons, List.filter_cons, hfr,
          Bool.false_eq_true, if_false] at ih ⊢
        rw [renderBarRef_of_unresolvable clipsById channel tpq r hfr,
          List.nil_append]
        exact ih
  · exact fun ref _ h => renderBarRef_of_unresolvable clipsById channel tpq ref h

/-- C1 counterexample data: a library with exactly clip 8 (one bar, one
note), and a track referencing bar 0 of clip 8, a missing clip 99, and an
out-of-range bar 5 of clip 8. -/
def c1Clips : List ClipDB := [⟨8, [⟨0, [⟨60, 0, 1, false⟩], none⟩]⟩]

def c1Refs : List TrackBarRef := [⟨1, 8, 0⟩, ⟨2, 99, 0⟩, ⟨3, 8, 5⟩]

/-- C1 counterexample: rendering a composition in which one track bar
reference names a clip id (99) not among the clips, and another names an
out-of-range `clip_bar_index` (bar 5 of a one-bar clip), does not abort:
the renderer returns a nonempty partial event stream containing exactly
the resolvable reference's events. -/
theorem c1_counterexample :
    renderTrack c1Clips 0 480 c1Refs =
      [(0, MidiMsg.noteOn 60 100 0), (480, MidiMsg.noteOff 60 0 0)] ∧
    (⟨2, 99, 0⟩ : TrackBarRef) ∈ c1Refs ∧
    (∀ c ∈ c1Clips, c.id ≠ 99) ∧
    (⟨3, 8, 5⟩ : TrackBarRef) ∈ c1Refs ∧
    (∀ c ∈ c1Clips, ¬ ((5 : ℤ) < c.bars.length)) ∧
    renderTrack c1Clips 0 480 c1Refs ≠ [] := by
  have hrt : renderTrack c1Clips 0 480 c1Refs =
      [(0, MidiMsg.noteOn 60 100 0), (480, MidiMsg.noteOff 60 0 0)] := by
    norm_num [renderTrack, renderTrackEvents, renderBarRef, c1Clips, c1Refs,
      sortEventsByTick, toDeltas, interpolateCurve, pyRound, List.insertionSort,
      List.orderedInsert, max_def]
  refine ⟨hrt, by decide, by decide, by decide, by decide, by rw [hrt]; simp⟩

/-- C1 witness: `c1_missing_ref_skipped` at the counterexample data: the
track's events equal those of the resolvable references alone, and the
missing-clip reference renders nothing. -/
theorem c1_missing_ref_skipped_witness :
    renderTrackEvents c1Clips 0 480 c1Refs =
      renderTrackEvents c1Clips 0 480 (c1Refs.filter (isResolvable c1Clips)) ∧
    renderBarRef c1Clips 0 480 ⟨2, 99, 0⟩ = [] :=
  ⟨(c1_missing_ref_skipped c1Clips 0 480 c1Refs).1,
   (c1_missing_ref_skipped c1Clips 0 480 c1Refs).2 ⟨2, 99, 0⟩ (by decide) rfl⟩

lemma length_takeWhile_eq {α : Type} (p : α → Bool) (l : List α) (i : ℕ)
    (hi : i < l.length)
    (hall : ∀ j (hj : j < l.length), j < i → p (l.get ⟨j, hj⟩) = true)
    (hstop : p (l.get ⟨i, hi⟩) = false) :
    (l.takeWhile p).length = i := by
  induction l generalizing i with
  | nil => simp at hi
  | cons a l ih =>
    cases i with
    | zero =>
      have ha : p a = false := hstop
      simp [List.takeWhile_cons, ha]
    | succ n =>
      have ha : p a = true := hall 0 (by simp) (Nat.succ_pos n)
      have hrec := ih n (Nat.lt_of_succ_lt_succ hi)
        (fun j hj hjn => hall (j + 1) (by simpa using Nat.succ_lt_succ hj)
          (Nat.succ_lt_succ hjn))
        hstop
      simp [List.takeWhile_cons, ha, hrec]

/-- Times are monotone along a strictly increasing curve. -/
lemma curve_time_mono (pts : List CurvePt)
    (hinc : pts.Pairwise (fun p q => p.time < q.time)) {i j : ℕ}
    (hij : i ≤ j) (hj : j < pts.length) :
    (pts.get ⟨i, lt_of_le_of_lt hij hj⟩).time ≤ (pts.get ⟨j, hj⟩).time := by
  rcases Nat.eq_or_lt_of_le hij with rfl | hlt
  · exact le_refl _
  · exact le_of_lt (by
      have := List.pairwise_iff_getElem.mp hinc i j (lt_of_le_of_lt hij hj) hj hlt
      simpa [List.get_eq_getElem] using this)

lemma curve_time_strict (pts : List CurvePt)
    (hinc : pts.Pairwise (fun p q => p.time < q.time)) {i j : ℕ}
    (hij : i < j) (hj : j < pts.length) :
    (pts.get ⟨i, lt_trans hij hj⟩).time < (pts.get ⟨j, hj⟩).time := by
  have := List.pairwise_iff_getElem.mp hinc i j (lt_trans hij hj) hj hij
  simpa [List.get_eq_getElem] using this

/-- Index access into the mapped time list. -/
lemma get_map_time (l : List CurvePt) (j : ℕ)
    (hj : j < (l.map (fun p => p.time)).length) :
    (l.map (fun p => p.time)).get ⟨j, hj⟩ =
      (l.get ⟨j, by simpa using hj⟩).time := by
  simp [List.get_eq_getElem, List.getElem_map]

/-- Index access into the mapped value list. -/
lemma get_map_value (l : List CurvePt) (j : ℕ)
    (hj : j < (l.map (fun p => p.value)).length) :
    (l.map (fun p => p.value)).get ⟨j, hj⟩ =
      (l.get ⟨j, by simpa using hj⟩).value := by
  simp [List.get_eq_getElem, List.getElem_map]

/-- Evaluation of `interpolateCurve` on a bracketing interval: when the
query time lies in `[t_i, t_{i+1})` and strictly after the first control
point, the result is the truncated linear interpolation on that interval. -/
lemma interpolateCurve_bracket (pts : List CurvePt) (t : ℚ)
    (hinc : pts.Pairwise (fun p q => p.time < q.time))
    (i : ℕ) (hi1 : i + 1 < pts.length)
    (h0 : (pts.get ⟨0, by omega⟩).time < t)
    (hle : (pts.get ⟨i, by omega⟩).time ≤ t)
    (hlt : t < (pts.get ⟨i + 1, hi1⟩).time) :
    interpolateCurve pts t =
      some (pyTrunc ((pts.get ⟨i, by omega⟩).value +
        ((pts.get ⟨i + 1, hi1⟩).value - (pts.get ⟨i, by omega⟩).value) *
          ((t - (pts.get ⟨i, by omega⟩).time) /
           ((pts.get ⟨i + 1, hi1⟩).time - (pts.get ⟨i, by omega⟩).time)))) := by
  match pts, hi1 with
  | p0 :: rest, hi1 =>
    have hc1 : ¬ (t ≤ p0.time) := not_le.mpr h0
    have hlast : t < ((p0 :: rest).getLast (List.cons_ne_nil p0 rest)).time := by
      rw [(p0 :: rest).getLast_eq_getElem (List.cons_ne_nil p0 rest)]
      calc t < ((p0 :: rest).get ⟨i + 1, hi1⟩).time := hlt
        _ ≤ _ := by
          have h := curve_time_mono (p0 :: rest) hinc
            (Nat.le_sub_one_of_lt hi1) (by simp)
          simpa [List.get_eq_getElem] using h
    have hc2 : ¬ (((p0 :: rest).getLast (List.cons_ne_nil p0 rest)).time ≤ t) :=
      not_le.mpr hlast
    have hidx : bisectRight ((p0 :: rest).map (fun p => p.time)) t = i + 1 := by
      apply length_takeWhile_eq _ _ (i + 1) (by rw [List.length_map]; exact hi1)
      · intro j hj hji
        rw [get_map_time]
        have hjt : ((p0 :: rest).get ⟨j, by simpa using hj⟩).time ≤ t :=
          le_trans (curve_time_mono (p0 :: rest) hinc (Nat.lt_succ_iff.mp hji)
            (by omega)) hle
        simpa using hjt
      · rw [get_map_time]
        simpa using not_le.mpr hlt
    have ht0 : ((p0 :: rest).map (fun p => p.time)).get? i =
        some (((p0 :: rest).get ⟨i, by omega⟩).time) := by
      rw [List.get?_eq_get (by rw [List.length_map]; omega), get_map_time]
    have ht1 : ((p0 :: rest).map (fun p => p.time)).get? (i + 1) =
        some (((p0 :: rest).get ⟨i + 1, hi1⟩).time) := by
      rw [List.get?_eq_get (by rw [List.length_map]; omega), get_map_time]
    have hv0 : ((p0 :: rest).map (fun p => p.value)).get? i =
        some (((p0 :: rest).get ⟨i, by omega⟩).value) := by
      rw [List.get?_eq_get (by rw [List.length_map]; omega), get_map_value]
    have hv1 : ((p0 :: rest).map (fun p => p.value)).get? (i + 1) =
        some (((p0 :: rest).get ⟨i + 1, hi1⟩).value) := by
      rw [List.get?_eq_get (by rw [List.length_map]; omega), get_map_value]
    have hne : ¬ (((p0 :: rest).get ⟨i + 1, hi1⟩).time =
        ((p0 :: rest).get ⟨i, by omega⟩).time) :=
      ne_of_gt (curve_time_strict (p0 :: rest) hinc (Nat.lt_succ_self i) hi1)
    simp only [interpolateCurve, if_neg hc1, if_neg hc2, hidx,
      Nat.add_sub_cancel, ht0, ht1, hv0, hv1, if_neg hne]

/-- The low clamp branch of `_interpolate_curve`. -/
lemma interpolateCurve_clamp_low (pts : List CurvePt) (h : pts ≠ []) (t : ℚ)
    (hle : t ≤ (pts.head h).time) :
    interpolateCurve pts t = some (pyTrunc ((pts.head h).value)) := by
  match pts, h with
  | p0 :: rest, _ =>
    simp only [List.head_cons] at hle ⊢
    simp only [interpolateCurve, if_pos hle]

/-- The high clamp branch of `_interpolate_curve`. -/
lemma interpolateCurve_clamp_high (pts : List CurvePt)
    (hinc : pts.Pairwise (fun p q => p.time < q.time)) (h : pts ≠ []) (t : ℚ)
    (hge : (pts.getLast h).time ≤ t) :
    interpolateCurve pts t = some (pyTrunc ((pts.getLast h).value)) := by
  match pts, h with
  | p0 :: rest, _ =>
    by_cases hfirst : t ≤ p0.time
    · cases rest with
      | nil => simp only [interpolateCurve, List.getLast_singleton, if_pos hfirst]
      | cons p1 rest2 =>
        exfalso
        have hlen : 0 < (p0 :: p1 :: rest2).length - 1 := by simp
        have h01 : p0.time <
            ((p0 :: p1 :: rest2).getLast (List.cons_ne_nil _ _)).time := by
          rw [(p0 :: p1 :: rest2).getLast_eq_getElem (List.cons_ne_nil _ _)]
          have := curve_time_strict (p0 :: p1 :: rest2) hinc hlen
            (by simp)
          simpa [List.get_eq_getElem] using this
        exact absurd (le_trans hge hfirst) (not_le.mpr h01)
    · simp only [interpolateCurve, if_neg hfirst, if_pos hge]

/-- `_interpolate_curve` returns the (truncated) stored value at a
control-point time. -/
lemma interpolateCurve_at_point (pts : List CurvePt)
    (hinc : pts.Pairwise (fun p q => p.time < q.time)) (i : ℕ)
    (hi : i < pts.length) (t : ℚ) (ht : t = (pts.get ⟨i, hi⟩).time) :
    interpolateCurve pts t = some (pyTrunc ((pts.get ⟨i, hi⟩).value)) := by
  have hne : pts ≠ [] := List.ne_nil_of_length_pos (by omega)
  by_cases hi0 : i = 0
  · subst hi0
    rw [interpolateCurve_clamp_low pts hne t (by
      rw [ht, List.head_eq_getElem_zero hne]
      simp [List.get_eq_getElem])]
    rw [List.head_eq_getElem_zero hne]
    simp [List.get_eq_getElem]
  · by_cases hilast : i = pts.length - 1
    · rw [interpolateCurve_clamp_high pts hinc hne t (by
        rw [ht, pts.getLast_eq_getElem hne]
        simp [List.get_eq_getElem, hilast])]
      rw [pts.getLast_eq_getElem hne]
      simp [List.get_eq_getElem, hilast]
    · have hi1 : i + 1 < pts.length := by omega
      have h0 : (pts.get ⟨0, by omega⟩).time < t := by
        rw [ht]
        exact curve_time_strict pts hinc (by omega) (by omega)
      rw [interpolateCurve_bracket pts t hinc i hi1 h0 (le_of_eq ht.symm)
        (ht ▸ curve_time_strict pts hinc (Nat.lt_succ_self i) hi1)]
      rw [ht]
      simp

/-- C6 (amended): for every control-point list with strictly increasing
times and every query time t, `_interpolate_curve` returns `None` on an
empty curve, the first point's value when t is at or before the first
time, the last point's value when t is at or after the last time, the
stored value when t equals any control-point time, and
`v0 + (v1-v0)*(t-t0)/(t1-t0)` when t lies strictly inside a bracketing
interval — in each non-empty case truncated to an integer by the
evaluator's `int(...)` (`pyTrunc`), which is the correction to the claim:
the exact rational interpolant is truncated toward zero before being
returned. -/
theorem c6_interpolation (pts : List CurvePt) (t : ℚ)
    (hinc : pts.Pairwise (fun p q => p.time < q.time)) :
    interpolateCurve [] t = none ∧
    (∀ h : pts ≠ [], t ≤ (pts.head h).time →
      interpolateCurve pts t = some (pyTrunc ((pts.head h).value))) ∧
    (∀ h : pts ≠ [], (pts.getLast h).time ≤ t →
      interpolateCurve pts t = some (pyTrunc ((pts.getLast h).value))) ∧
    (∀ (i : ℕ) (hi : i < pts.length), t = (pts.get ⟨i, hi⟩).time →
      interpolateCurve pts t = some (pyTrunc ((pts.get ⟨i, hi⟩).value))) ∧
    (∀ (i : ℕ) (hi1 : i + 1 < pts.length),
      (pts.get ⟨i, by omega⟩).time < t → t < (pts.get ⟨i + 1, hi1⟩).time →
      interpolateCurve pts t =
        some (pyTrunc ((pts.get ⟨i, by omega⟩).value +
          ((pts.get ⟨i + 1, hi1⟩).value - (pts.get ⟨i, by omega⟩).value) *
            ((t - (pts.get ⟨i, by omega⟩).time) /
             ((pts.get ⟨i + 1, hi1⟩).time - (pts.get ⟨i, by omega⟩).time))))) := by
  refine ⟨rfl, fun h hle => interpolateCurve_clamp_low pts h t hle,
    fun h hge => interpolateCurve_clamp_high pts hinc h t hge,
    fun i hi ht => interpolateCurve_at_point pts hinc i hi t ht,
    fun i hi1 hlo hhi => ?_⟩
  have h0 : (pts.get ⟨0, by omega⟩).time < t :=
    lt_of_le_of_lt (curve_time_mono pts hinc (Nat.zero_le i) (by omega)) hlo
  exact interpolateCurve_bracket pts t hinc i hi1 h0 (le_of_lt hlo) hhi

/-- C6 counterexample: the claim's interior formula without truncation
fails: on the curve `[(0,90), (3,100)]` at `t = 1` the code returns the
integer 93 (`int(...)` truncation), whereas
`v0 + (v1-v0)*(t-t0)/(t1-t0) = 280/3 ≈ 93.33`. -/
theorem c6_counterexample :
    interpolateCurve [⟨0, 90⟩, ⟨3, 100⟩] 1 = some 93 ∧
    (90 : ℚ) + (100 - 90) * ((1 - 0) / (3 - 0)) = 280 / 3 ∧
    ¬ ((93 : ℚ) = 280 / 3) := by
  refine ⟨?_, by norm_num, by norm_num⟩
  have h := interpolateCurve_bracket [⟨0, 90⟩, ⟨3, 100⟩] 1
    (by norm_num [List.pairwise_cons]) 0 (by norm_num)
    (by norm_num) (by norm_num) (by norm_num)
  rw [h]
  norm_num [pyTrunc]

/-- C6 witness: `c6_interpolation`'s interior case at the spec's example:
the velocity curve `[(0,90), (4,100)]` evaluated at `t = 2` yields the
truncated interpolant, which is 95. -/
theorem c6_interpolation_witness :
    interpolateCurve [⟨0, 90⟩, ⟨4, 100⟩] 2 =
      some (pyTrunc ((90 : ℚ) + ((100 : ℚ) - 90) * (((2 : ℚ) - 0) / ((4 : ℚ) - 0)))) ∧
    pyTrunc ((90 : ℚ) + ((100 : ℚ) - 90) * (((2 : ℚ) - 0) / ((4 : ℚ) - 0))) = 95 := by
  constructor
  · have h := (c6_interpolation [⟨0, 90⟩, ⟨4, 100⟩] 2
      (by norm_num [List.pairwise_cons])).2.2.2.2 0 (by norm_num)
      (by norm_num) (by norm_num)
    simpa using h
  · norm_num [pyTrunc]

/-- Running reconstruction of absolute ticks from emitted deltas. -/
def scanTicks (acc : ℤ) : List (ℤ × MidiMsg) → List ℤ
  | [] => []
  | (d, _) :: rest => (acc + d) :: scanTicks (acc + d) rest

/-- Inserting an event into a tick-ordered list prepends it to the events
of its own tick and leaves every tick class otherwise unchanged. -/
lemma filter_orderedInsert (tk : ℤ) (a : ℤ × MidiMsg) (l : List (ℤ × MidiMsg)) :
    (List.orderedInsert (fun x y => x.1 ≤ y.1) a l).filter (fun e => e.1 == tk) =
      if a.1 = tk then a :: l.filter (fun e => e.1 == tk)
      else l.filter (fun e => e.1 == tk) := by
  induction l with
  | nil => by_cases h : a.1 = tk <;> simp [List.orderedInsert, h]
  | cons b l ih =>
    by_cases hab : a.1 ≤ b.1
    · rw [List.orderedInsert, if_pos hab]
      by_cases h : a.1 = tk <;> simp [List.filter_cons, h]
    · rw [List.orderedInsert, if_neg hab, List.filter_cons, ih]
      by_cases h : a.1 = tk
      · have hbne : ¬ (b.1 = tk) := fun hb => hab (le_of_eq (h.trans hb.symm))
        simp [h, hbne, List.filter_cons]
      · simp [h, List.filter_cons]

/-- Stability of the tick sort: each tick's events keep insertion order. -/
lemma filter_sortEventsByTick (tk : ℤ) (evs : List (ℤ × MidiMsg)) :
    (sortEventsByTick evs).filter (fun e => e.1 == tk) =
      evs.filter (fun e => e.1 == tk) := by
  induction evs with
  | nil => rfl
  | cons a l ih =>
    simp only [sortEventsByTick, List.insertionSort] at ih ⊢
    rw [filter_orderedInsert]
    by_cases h : a.1 = tk <;> simp [List.filter_cons, h, ih]

lemma sorted_sortEventsByTick (evs : List (ℤ × MidiMsg)) :
    List.Sorted (fun a b : ℤ × MidiMsg => a.1 ≤ b.1) (sortEventsByTick evs) := by
  haveI h1 : IsTotal (ℤ × MidiMsg) (fun a b => a.1 ≤ b.1) :=
    ⟨fun a b => le_total a.1 b.1⟩
  haveI h2 : IsTrans (ℤ × MidiMsg) (fun a b => a.1 ≤ b.1) :=
    ⟨fun _ _ _ hab hbc => le_trans hab hbc⟩
  exact List.sorted_insertionSort _ _

lemma toDeltas_nonneg (last : ℤ) (l : List (ℤ × MidiMsg)) :
    ∀ d ∈ toDeltas last l, 0 ≤ d.1 := by
  induction l generalizing last with
  | nil => simp [toDeltas]
  | cons a l ih =>
    obtain ⟨t, m⟩ := a
    simp only [toDeltas, List.mem_cons]
    rintro d (rfl | hd)
    · exact le_max_left 0 _
    · exact ih t d hd

/-- On a tick-sorted list whose first tick is at least the initial cursor,
the emitted deltas reconstruct every absolute tick. -/
lemma scanTicks_toDeltas (l : List (ℤ × MidiMsg)) (last : ℤ)
    (hchain : l.Chain' (fun a b => a.1 ≤ b.1))
    (hhead : ∀ x ∈ l.head?, last ≤ x.1) :
    scanTicks last (toDeltas last l) = l.map (fun e => e.1) := by
  induction l generalizing last with
  | nil => rfl
  | cons a l ih =>
    obtain ⟨t, m⟩ := a
    have hlt : last ≤ t := hhead (t, m) (by simp)
    have hmax : max 0 (t - last) = t - last := max_eq_right (by omega)
    have hrec := ih t (List.chain'_cons'.mp hchain).2
      (fun x hx => (List.chain'_cons'.mp hchain).1 x hx)
    simp only [toDeltas, scanTicks, hmax, List.map_cons]
    rw [show last + (t - last) = t by ring, hrec]

/-- Each tick the renderer emits is the rounding of an absolute beat time
scaled by `ticks_per_quarter`. -/
lemma renderBarRef_tick (clipsById : List ClipDB) (channel tpq : ℤ)
    (ref : TrackBarRef) :
    ∀ e ∈ renderBarRef clipsById channel tpq ref,
      ∃ beats : ℚ, e.1 = pyRound (beats * tpq) := by
  intro e he
  simp only [renderBarRef] at he
  split at he
  · simp at he
  · split at he
    · simp at he
    · rcases List.mem_flatMap.mp he with ⟨note, hnote, hev⟩
      split at hev
      · simp at hev
      · simp only [List.mem_cons, List.not_mem_nil, or_false] at hev
        rcases hev with rfl | rfl
        · exact ⟨(ref.bar_index - 1) * 4 + note.start, rfl⟩
        · exact ⟨(ref.bar_index - 1) * 4 + note.start + note.duration, rfl⟩

/-- C7: per track, each emitted event's tick is `round(beats * tpq)` for
its absolute beat time; the events are stable-sorted by tick (the sorted
list is nondecreasing and every tick class keeps its insertion order);
every emitted delta is nonnegative; and — whenever all absolute ticks are
nonnegative, as for any composition whose bars are 1-based and whose note
times are nonnegative — the running sum of the deltas reconstructs each
event's absolute tick. -/
theorem c7_batch_deltas (clipsById : List ClipDB) (track_index tpq : ℤ)
    (refs : List TrackBarRef) :
    renderTrack clipsById track_index tpq refs =
      toDeltas 0 (sortEventsByTick
        (renderTrackEvents clipsById (track_index % 16) tpq refs)) ∧
    List.Sorted (fun a b : ℤ × MidiMsg => a.1 ≤ b.1)
      (sortEventsByTick (renderTrackEvents clipsById (track_index % 16) tpq refs)) ∧
    (∀ tk : ℤ,
      (sortEventsByTick
          (renderTrackEvents clipsById (track_index % 16) tpq refs)).filter
          (fun e => e.1 == tk) =
        (renderTrackEvents clipsById (track_index % 16) tpq refs).filter
          (fun e => e.1 == tk)) ∧
    (∀ e ∈ renderTrackEvents clipsById (track_index % 16) tpq refs,
      ∃ beats : ℚ, e.1 = pyRound (beats * tpq)) ∧
    (∀ d ∈ toDeltas 0 (sortEventsByTick
        (renderTrackEvents clipsById (track_index % 16) tpq refs)), 0 ≤ d.1) ∧
    ((∀ e ∈ renderTrackEvents clipsById (track_index % 16) tpq refs, 0 ≤ e.1) →
      scanTicks 0 (toDeltas 0 (sortEventsByTick
          (renderTrackEvents clipsById (track_index % 16) tpq refs))) =
        (sortEventsByTick
          (renderTrackEvents clipsById (track_index % 16) tpq refs)).map
          (fun e => e.1)) := by
  refine ⟨rfl, sorted_sortEventsByTick _, fun tk => filter_sortEventsByTick tk _,
    ?_, toDeltas_nonneg 0 _, ?_⟩
  · intro e he
    rcases List.mem_flatMap.mp he with ⟨ref, _, hmem⟩
    exact renderBarRef_tick clipsById (track_index % 16) tpq ref e hmem
  · intro hpos
    apply scanTicks_toDeltas
    · exact (sorted_sortEventsByTick _).chain'
    · intro x hx
      have hx2 : x ∈ sortEventsByTick
          (renderTrackEvents clipsById (track_index % 16) tpq refs) :=
        List.mem_of_mem_head? hx
      exact hpos x ((List.perm_insertionSort _ _).mem_iff.mp hx2)

/-- C7 witness: `c7_batch_deltas` at the one-note track of the C1 data:
all deltas are nonnegative and the delta sums reconstruct the sorted
ticks. -/
theorem c7_batch_deltas_witness :
    (∀ d ∈ toDeltas 0 (sortEventsByTick
        (renderTrackEvents c1Clips ((0 : ℤ) % 16) 480 [⟨1, 8, 0⟩])), 0 ≤ d.1) ∧
    scanTicks 0 (toDeltas 0 (sortEventsByTick
        (renderTrackEvents c1Clips ((0 : ℤ) % 16) 480 [⟨1, 8, 0⟩]))) =
      (sortEventsByTick
        (renderTrackEvents c1Clips ((0 : ℤ) % 16) 480 [⟨1, 8, 0⟩])).map
        (fun e => e.1) :=
  ⟨(c7_batch_deltas c1Clips 0 480 [⟨1, 8, 0⟩]).2.2.2.2.1,
   (c7_batch_deltas c1Clips 0 480 [⟨1, 8, 0⟩]).2.2.2.2.2 (by
     intro e he
     rw [show renderTrackEvents c1Clips ((0 : ℤ) % 16) 480 [⟨1, 8, 0⟩] =
         [(0, MidiMsg.noteOn 60 100 0), (480, MidiMsg.noteOff 60 0 0)] from by
       norm_num [renderTrackEvents, renderBarRef, c1Clips, interpolateCurve,
         pyRound]] at he
     simp only [List.mem_cons, List.not_mem_nil, or_false] at he
     rcases he with rfl | rfl <;> norm_num)⟩

end Composer
